import Mathlib

/-!
Verification development for the QuickCodeReplace repository
(`words_replacer.py` and `rename_old2new.py`).

Strings are modelled as `List Char` (Python `str` is a sequence of code
points; `file.read(n)` in text mode reads up to `n` characters).  Python
dictionaries preserve insertion order, so a `ReplacementMap` is modelled as
an ordered association list `List (Str × Str)`.

Recursive scans that skip more than one element per step carry an explicit
fuel argument so that every definition is structurally recursive and can be
evaluated by `decide`; fuel equal to the length of the scanned list always
suffices because every step consumes at least one character, and the lemmas
below are proved for every fuel value they can be called with.
-/

namespace QuickCodeReplace

abbrev Str := List Char

/-- Python's substring containment test `old in s` (`str.__contains__`). -/
def isSubstringOf (old : Str) : Str → Bool
  | [] => old.isEmpty
  | c :: rest => old.isPrefixOf (c :: rest) || isSubstringOf old rest

/-- Python `s.replace(old, new)` for a non-empty `old = o :: os`: scan left to
right, replacing each leftmost non-overlapping occurrence.  `fuel` bounds the
recursion; `fuel = s.length` suffices since every step consumes at least one
character. -/
def pyReplaceAux (o : Char) (os new : List Char) : Nat → Str → Str
  | _, [] => []
  | 0, c :: rest => c :: rest
  | fuel + 1, c :: rest =>
    if (o :: os).isPrefixOf (c :: rest) then
      new ++ pyReplaceAux o os new fuel (rest.drop os.length)
    else
      c :: pyReplaceAux o os new fuel rest

/-- Python `s.replace(old, new)`.  For an empty `old`, Python inserts `new`
before every character and at the end (`"ab".replace("", "X") = "XaXbX"`). -/
def pyReplace (s old new : Str) : Str :=
  match old with
  | [] => new ++ s.flatMap (fun c => c :: new)
  | o :: os => pyReplaceAux o os new s.length s

/-- Source `rename_old2new.apply_replacement_rules` (lines 18-31): fold the
rules over the text, each rule replacing every occurrence of its old string
in the already-rewritten text, in the map's insertion order. -/
def apply_replacement_rules (rules : List (Str × Str)) (text : Str) : Str :=
  rules.foldl (fun result r => pyReplace result r.1 r.2) text

/-- One step of the per-chunk rule loop in `WordsReplacer._process_file`
(lines 107-110): the replacement is guarded by Python's `old_word in
new_chunk` containment test, and the guard also raises the
`content_changed` flag. -/
def replaceStep (acc : Str × Bool) (rule : Str × Str) : Str × Bool :=
  if isSubstringOf rule.1 acc.1 then (pyReplace acc.1 rule.1 rule.2, true) else acc

/-- The full rule loop of `WordsReplacer._process_file` on one chunk:
returns the rewritten chunk and whether any rule fired on it. -/
def rewriteChunk (rules : List (Str × Str)) (chunk : Str) : Str × Bool :=
  rules.foldl replaceStep (chunk, false)

/-- Fuel-carrying worker for `chunksOf`: splits a non-empty text into chunks
of `n + 1` characters (the last chunk may be shorter). -/
def chunksOfAux (n : Nat) : Nat → Str → List Str
  | _, [] => []
  | 0, _ :: _ => []
  | fuel + 1, c :: rest => (c :: rest.take n) :: chunksOfAux n fuel (rest.drop n)

/-- The chunking performed by the `while chunk := f.read(self.buffer_size)`
loop of `_process_file` (line 104): successive chunks of `m` characters.
With `m = 0` Python's `f.read(0)` returns the empty string at once, so the
loop body never runs and no chunks are produced. -/
def chunksOf (m : Nat) (s : Str) : List Str :=
  match m with
  | 0 => []
  | n + 1 => chunksOfAux n s.length s

/-- Accumulation step of `_process_file`'s chunk loop: append the rewritten
chunk to the output buffer and accumulate the `content_changed` flag. -/
def chunkStep (rules : List (Str × Str)) (acc : Str × Bool) (chunk : Str) : Str × Bool :=
  let r := rewriteChunk rules chunk
  (acc.1 ++ r.1, acc.2 || r.2)

/-- Pure content model of `WordsReplacer._process_file` (lines 94-124) on a
file whose original text is `content`, with buffer size `m`: returns the
resulting on-disk content together with whether a write was performed.  The
file is rewritten with the accumulated buffer exactly when the
`content_changed` flag was raised; otherwise it is left untouched. -/
def process_file (rules : List (Str × Str)) (m : Nat) (content : Str) : Str × Bool :=
  let out := (chunksOf m content).foldl (chunkStep rules) ([], false)
  (if out.2 then out.1 else content, out.2)

/-- Injection points for the I/O and decode errors `_process_file` can meet,
at the granularity of the Python statements of lines 103-120: the read-side
`open` (line 103), the `f.read` of chunk `i` (line 104, covering decode
errors), the write-side `open(file_path, 'w')` (line 117, which truncates
the file when it succeeds and leaves it untouched when it raises), and the
`f.write` call (line 120, which can raise after the successful write-side
`open` has already truncated, leaving `k` characters on disk). -/
inductive ErrPoint where
  | noErr : ErrPoint
  | atOpenRead : ErrPoint
  | atRead : Nat → ErrPoint
  | atOpenWrite : ErrPoint
  | atWrite : Nat → ErrPoint
deriving DecidableEq

/-- On-disk content left by `_process_file` under the error injection `err`.
The whole body is wrapped in `try`/`except` (lines 97-127), so every error
is caught and the function returns normally; the write path (lines 116-120)
is only entered when the `content_changed` flag was raised. -/
def process_file_disk (rules : List (Str × Str)) (m : Nat) (content : Str)
    (err : ErrPoint) : Str :=
  let r := process_file rules m content
  match err with
  | ErrPoint.noErr => r.1
  | ErrPoint.atOpenRead => content
  | ErrPoint.atRead _ => content
  | ErrPoint.atOpenWrite => content
  | ErrPoint.atWrite k => if r.2 then r.1.take k else content

/-- The fan-out of `WordsReplacer.run` (line 135) over the collected files:
each file is processed independently by `_process_file`, whose per-file
`try`/`except` absorbs its error, so one file's error never aborts another
file's processing. -/
def process_tree (rules : List (Str × Str)) (m : Nat)
    (files : List (Str × ErrPoint)) : List Str :=
  files.map (fun f => process_file_disk rules m f.1 f.2)

/-- Source `WordsReplacer._collect_text_files` (lines 80-92): classify every
path and keep exactly those whose encoding is neither `'binary'` nor `None`.
The classification itself (`_get_file_encoding`) is platform- and
subprocess-dependent, so it enters the model as an arbitrary function
`classify`; the collector's filter is taken verbatim from lines 88-90. -/
def collect_text_files (classify : Str → Option Str) (paths : List Str) :
    List (Str × Str) :=
  paths.filterMap (fun p =>
    match classify p with
    | some e => if e = "binary".toList then none else some (p, e)
    | none => none)

/-- Source `rename_old2new.rename_single` (lines 151-178), over a filesystem
modelled as the list of existing paths.  `raises` injects an `os.rename`
failure for a given source path; the target, if present, has already been
removed by `os.remove` (line 171) when the rename raises.  Returns the new
filesystem and the function's boolean result. -/
def rename_single (raises : Str → Bool) (fs : List Str) (old nw : Str) :
    List Str × Bool :=
  if old ∈ fs then
    let fs1 := if nw ∈ fs then fs.erase nw else fs
    if raises old then (fs1, false)
    else ((fs1.erase old) ++ [nw], true)
  else (fs, false)

/-- One entry of the batch of `rename_old2new.batch_rename_filename`
(lines 198-202): attempt `rename_single` on the entry and record its
boolean result (the thread-pool fan-out is modelled sequentially; each
entry is attempted regardless of earlier results because `rename_single`
catches its own errors). -/
def batchStep (raises : Str → Bool) (acc : List Str × List Bool) (e : Str × Str) :
    List Str × List Bool :=
  let r := rename_single raises acc.1 e.1 e.2
  (r.1, acc.2 ++ [r.2])

/-- Source `rename_old2new.batch_rename_filename` (lines 180-207): one
`batchStep` per entry, collecting every entry's boolean result. -/
def batch_rename_filename (raises : Str → Bool) (fs : List Str)
    (entries : List (Str × Str)) : List Str × List Bool :=
  entries.foldl (batchStep raises) (fs, [])

/-- The `for old,new in rename_dirs.items()` loop of
`rename_old2new.serial_rename_dirname` (lines 216-220).  The loop sits
inside the function's single `try` (line 210), so a raised `os.rename`
aborts the remaining entries and returns the filesystem as it stands; a
missing source (`os.path.exists` false) or an identical name is skipped and
the loop continues. -/
def serialRenameLoop (raises : Str → Bool) : List Str → List (Str × Str) → List Str
  | fs, [] => fs
  | fs, (old, nw) :: rest =>
    if old ≠ nw then
      if old ∈ fs then
        if raises old then fs
        else serialRenameLoop raises ((fs.erase old) ++ [nw]) rest
      else serialRenameLoop raises fs rest
    else serialRenameLoop raises fs rest

/-- Python `dict` insertion: an existing key is updated in place, a new key
is appended at the end. -/
def dictInsert (d : List (Str × Str)) (k v : Str) : List (Str × Str) :=
  if d.any (fun e => e.1 = k) then
    d.map (fun e => if e.1 = k then (k, v) else e)
  else d ++ [(k, v)]

/-- Source `rename_old2new.serial_rename_dirname` (lines 209-224): first the
root directory's own rename is appended to the mapping when the rules change
its path (lines 211-214), then the loop runs. -/
def serial_rename_dirname (raises : Str → Bool) (rules : List (Str × Str))
    (fs : List Str) (code_path : Str) (rename_dirs : List (Str × Str)) : List Str :=
  let recode := apply_replacement_rules rules code_path
  let dirs := if recode ≠ code_path then dictInsert rename_dirs code_path recode
              else rename_dirs
  serialRenameLoop raises fs dirs

/-- Match of one regex pattern character against one subject character:
`'.'` is the metacharacter matching any character except a newline, every
other character matches literally.  This models the fragment of Python
`re` patterns actually reachable here: patterns built from literal
characters and `'.'` (other metacharacters are outside the model). -/
def charMatches (p c : Char) : Bool :=
  if p = '.' then c != '\n' else p == c

/-- Fixed-width match of a literal-plus-dot pattern against a prefix of the
subject. -/
def patMatches : Str → Str → Bool
  | [], _ => true
  | _ :: _, [] => false
  | p :: ps, c :: cs => charMatches p c && patMatches ps cs

/-- Scan of Python `re.sub(pat, new, s)` for a non-empty literal-plus-dot
pattern: replace each leftmost non-overlapping match.  Fuel as in
`pyReplaceAux`. -/
def reSubAux (p : Char) (ps new : List Char) : Nat → Str → Str
  | _, [] => []
  | 0, c :: rest => c :: rest
  | fuel + 1, c :: rest =>
    if patMatches (p :: ps) (c :: rest) then
      new ++ reSubAux p ps new fuel (rest.drop ps.length)
    else
      c :: reSubAux p ps new fuel rest

/-- Python `re.sub(pat, new, s)` for a literal-plus-dot pattern.  An empty
pattern matches at every position, inserting `new` before every character
and at the end, exactly as `str.replace` with an empty old string. -/
def reSub (s pat new : Str) : Str :=
  match pat with
  | [] => new ++ s.flatMap (fun c => c :: new)
  | p :: ps => reSubAux p ps new s.length s

/-- Source `rename_old2new.abbreviate_words` (lines 110-115), parametrised
by the rule table (the source reads the module-level `REPLACEMENT_RULES`):
each rule is guarded by Python's literal containment test `key in result`
but applied with `re.sub`, i.e. with the key interpreted as a regex
pattern. -/
def abbreviate_words (rules : List (Str × Str)) (base : Str) : Str :=
  rules.foldl
    (fun result r => if isSubstringOf r.1 result then reSub result r.1 r.2 else result)
    base

/-- Source `rename_old2new.REPLACEMENT_RULES` (lines 12-16), in the dict's
insertion order. -/
def REPLACEMENT_RULES : List (Str × Str) :=
  [("Hello world".toList, "hello everyone".toList),
   ("Hello".toList, "hello".toList),
   ("Cat".toList, "Dog".toList)]

/-- Python `str.isspace` characters stripped by `str.strip()`. -/
def isPySpace (c : Char) : Bool :=
  c = ' ' || c = '\t' || c = '\n' || c = '\r' || c = '\x0b' || c = '\x0c'

/-- Python `line.strip()`: remove leading and trailing whitespace. -/
def pyStrip (s : Str) : Str :=
  ((s.dropWhile isPySpace).reverse.dropWhile isPySpace).reverse

/-- Python `line.startswith('#')`. -/
def startsWithHash : Str → Bool
  | '#' :: _ => true
  | _ => false

/-- Python `line.split(' ', 1)`: `none` when the line contains no space
(the list `[line]` of length 1), otherwise the parts before and after the
first space. -/
def split_space_once : Str → Option (Str × Str)
  | [] => none
  | c :: rest =>
    if c = ' ' then some ([], rest)
    else
      match split_space_once rest with
      | some (k, v) => some (c :: k, v)
      | none => none

/-- Python `value[0].upper() + value[1:]` (line 155 of `words_replacer.py`):
`none` models the `IndexError` raised on an empty value.  `Char.toUpper`
models `str.upper` on the ASCII range reachable from the config format. -/
def upperFirstOpt : Str → Option Str
  | [] => none
  | c :: cs => some (c.toUpper :: cs)

/-- Total description of the stored value used on the specification side:
the remainder with its first character upper-cased. -/
def upperFirstSpec : Str → Str
  | [] => []
  | c :: cs => c.toUpper :: cs

/-- Body of the `for line in file` loop of
`words_replacer.read_config_file` (lines 145-155) on one line: `none`
models an exception escaping the loop body (only the `value[0]` access can
raise). -/
def processLine (d : List (Str × Str)) (line : Str) : Option (List (Str × Str)) :=
  let t := pyStrip line
  if t.isEmpty || startsWithHash t then some d
  else
    match split_space_once t with
    | some kv =>
      match upperFirstOpt kv.2 with
      | some v2 => some (dictInsert d kv.1 v2)
      | none => none
    | none => some d

/-- The line loop of `read_config_file`: an exception in the body is caught
by the function's `except` clause (lines 156-159), which stops the loop and
returns the dictionary accumulated so far. -/
def readConfigLoop : List Str → List (Str × Str) → List (Str × Str)
  | [], d => d
  | line :: rest, d =>
    match processLine d line with
    | some d2 => readConfigLoop rest d2
    | none => d

/-- Source `words_replacer.read_config_file` (lines 141-160) over the list
of lines of the config file. -/
def read_config_file (lines : List Str) : List (Str × Str) :=
  readConfigLoop lines []

theorem isSubstringOf_nil_left (s : Str) : isSubstringOf [] s = true := by
  cases s <;> rfl

theorem isSubstringOf_iff (old s : Str) : isSubstringOf old s = true ↔ old <:+: s := by
  induction s with
  | nil =>
    cases old with
    | nil => simp [isSubstringOf, List.isEmpty, List.infix_nil]
    | cons o os => simp [isSubstringOf, List.isEmpty, List.infix_nil]
  | cons c rest ih =>
    simp only [isSubstringOf, Bool.or_eq_true, ih, List.isPrefixOf_iff_prefix]
    exact List.infix_cons_iff.symm

theorem pyReplaceAux_id (o : Char) (os new : List Char) :
    ∀ (fuel : Nat) (s : Str), ¬ (o :: os) <:+: s → pyReplaceAux o os new fuel s = s := by
  intro fuel
  induction fuel with
  | zero => intro s _; cases s <;> rfl
  | succ n ih =>
    intro s h
    cases s with
    | nil => rfl
    | cons c rest =>
      have hpre : ¬ ((o :: os).isPrefixOf (c :: rest) = true) := fun hp =>
        h (List.infix_cons_iff.mpr (Or.inl (List.isPrefixOf_iff_prefix.mp hp)))
      have hrest : ¬ (o :: os) <:+: rest := fun hs =>
        h (List.infix_cons_iff.mpr (Or.inr hs))
      simp only [pyReplaceAux]
      rw [if_neg hpre, ih rest hrest]

theorem pyReplace_id (s old new : Str) (h : isSubstringOf old s = false) :
    pyReplace s old new = s := by
  cases old with
  | nil => rw [isSubstringOf_nil_left] at h; cases h
  | cons o os =>
    apply pyReplaceAux_id
    intro hsub
    rw [← isSubstringOf_iff] at hsub
    rw [hsub] at h
    cases h

theorem apply_replacement_rules_cons (r : Str × Str) (rs : List (Str × Str)) (t : Str) :
    apply_replacement_rules (r :: rs) t = apply_replacement_rules rs (pyReplace t r.1 r.2) :=
  rfl

theorem foldl_replaceStep_fst (rules : List (Str × Str)) :
    ∀ acc : Str × Bool,
      (rules.foldl replaceStep acc).1 = apply_replacement_rules rules acc.1 := by
  induction rules with
  | nil => intro acc; rfl
  | cons r rs ih =>
    intro acc
    rw [List.foldl_cons, apply_replacement_rules_cons, ih]
    by_cases hg : isSubstringOf r.1 acc.1 = true
    · rw [replaceStep, if_pos hg]
    · rw [replaceStep, if_neg hg]
      rw [pyReplace_id acc.1 r.1 r.2 (Bool.not_eq_true _ ▸ hg)]

theorem rewriteChunk_fst (rules : List (Str × Str)) (chunk : Str) :
    (rewriteChunk rules chunk).1 = apply_replacement_rules rules chunk :=
  foldl_replaceStep_fst rules (chunk, false)

theorem rewriteChunk_noop (rules : List (Str × Str)) (chunk : Str)
    (h : ∀ r ∈ rules, isSubstringOf r.1 chunk = false) :
    rewriteChunk rules chunk = (chunk, false) := by
  unfold rewriteChunk
  induction rules with
  | nil => rfl
  | cons r rs ih =>
    rw [List.foldl_cons, replaceStep]
    rw [if_neg]
    · exact ih (fun r' hr' => h r' (List.mem_cons_of_mem r hr'))
    · rw [h r (List.mem_cons_self r rs)]
      simp

theorem mem_chunksOfAux_contig (n : Nat) :
    ∀ (fuel : Nat) (s chunk : Str), chunk ∈ chunksOfAux n fuel s → chunk <:+: s := by
  intro fuel
  induction fuel with
  | zero =>
    intro s chunk h
    cases s with
    | nil => cases h
    | cons c rest => cases h
  | succ f ih =>
    intro s chunk h
    cases s with
    | nil => cases h
    | cons c rest =>
      simp only [chunksOfAux, List.mem_cons] at h
      rcases h with h | h
      · subst h
        exact ⟨[], rest.drop n, by simp⟩
      · have h1 := ih (rest.drop n) chunk h
        have h2 : rest.drop n <:+ c :: rest :=
          (List.drop_suffix n rest).trans (List.suffix_cons c rest)
        exact h1.trans h2.isInfix

theorem mem_chunksOf_contig (m : Nat) (s chunk : Str) (h : chunk ∈ chunksOf m s) :
    chunk <:+: s := by
  cases m with
  | zero => cases h
  | succ n => exact mem_chunksOfAux_contig n s.length s chunk h

theorem foldl_chunkStep_flag (rules : List (Str × Str)) :
    ∀ (chunks : List Str), (∀ c ∈ chunks, rewriteChunk rules c = (c, false)) →
      ∀ acc : Str × Bool, (chunks.foldl (chunkStep rules) acc).2 = acc.2 := by
  intro chunks
  induction chunks with
  | nil => intro _ acc; rfl
  | cons c cs ih =>
    intro h acc
    rw [List.foldl_cons]
    rw [ih (fun c' hc' => h c' (List.mem_cons_of_mem c hc'))]
    show (acc.2 || (rewriteChunk rules c).2) = acc.2
    rw [h c (List.mem_cons_self c cs)]
    simp

theorem process_file_noop (rules : List (Str × Str)) (m : Nat) (content : Str)
    (h : ∀ r ∈ rules, isSubstringOf r.1 content = false) :
    process_file rules m content = (content, false) := by
  have hchunk : ∀ chunk ∈ chunksOf m content, rewriteChunk rules chunk = (chunk, false) := by
    intro chunk hc
    apply rewriteChunk_noop
    intro r hr
    by_contra hne
    have htrue : isSubstringOf r.1 chunk = true := by
      cases hb : isSubstringOf r.1 chunk with
      | true => rfl
      | false => exact absurd hb hne
    have hinf : r.1 <:+: content :=
      ((isSubstringOf_iff r.1 chunk).mp htrue).trans (mem_chunksOf_contig m content chunk hc)
    have hc2 : isSubstringOf r.1 content = true := (isSubstringOf_iff r.1 content).mpr hinf
    rw [h r hr] at hc2
    cases hc2
  have hflag := foldl_chunkStep_flag rules (chunksOf m content) hchunk ([], false)
  show (_, _) = (content, false)
  rw [hflag, if_neg (by simp)]

theorem patMatches_eq (pat : Str) (hdot : '.' ∉ pat) :
    ∀ s, patMatches pat s = pat.isPrefixOf s := by
  induction pat with
  | nil => intro s; cases s <;> rfl
  | cons p ps ih =>
    intro s
    cases s with
    | nil => rfl
    | cons c cs =>
      have hp : p ≠ '.' := fun h => hdot (by rw [h]; exact List.mem_cons_self '.' ps)
      have hps : '.' ∉ ps := fun h => hdot (List.mem_cons_of_mem p h)
      simp only [patMatches, charMatches, if_neg hp, List.isPrefixOf, ih hps]

theorem reSubAux_eq_pyReplaceAux (p : Char) (ps new : List Char) (hdot : '.' ∉ p :: ps) :
    ∀ (fuel : Nat) (s : Str), reSubAux p ps new fuel s = pyReplaceAux p ps new fuel s := by
  intro fuel
  induction fuel with
  | zero => intro s; cases s <;> rfl
  | succ f ih =>
    intro s
    cases s with
    | nil => rfl
    | cons c rest =>
      simp only [reSubAux, pyReplaceAux, patMatches_eq (p :: ps) hdot]
      by_cases hm : (p :: ps).isPrefixOf (c :: rest) = true
      · rw [if_pos hm, if_pos hm, ih]
      · rw [if_neg hm, if_neg hm, ih]

theorem reSub_eq_pyReplace (s pat new : Str) (hdot : '.' ∉ pat) :
    reSub s pat new = pyReplace s pat new := by
  cases pat with
  | nil => rfl
  | cons p ps => exact reSubAux_eq_pyReplaceAux p ps new hdot s.length s

theorem abbreviate_eq_apply (rules : List (Str × Str)) (hdot : ∀ r ∈ rules, '.' ∉ r.1) :
    ∀ base, abbreviate_words rules base = apply_replacement_rules rules base := by
  induction rules with
  | nil => intro base; rfl
  | cons r rs ih =>
    intro base
    have hr := hdot r (List.mem_cons_self r rs)
    have hrs : ∀ r' ∈ rs, '.' ∉ r'.1 := fun r' h' => hdot r' (List.mem_cons_of_mem r h')
    show List.foldl _ (if isSubstringOf r.1 base = true then reSub base r.1 r.2 else base) rs
        = apply_replacement_rules (r :: rs) base
    rw [apply_replacement_rules_cons]
    by_cases hg : isSubstringOf r.1 base = true
    · rw [if_pos hg, reSub_eq_pyReplace base r.1 r.2 hr]
      exact ih hrs (pyReplace base r.1 r.2)
    · rw [if_neg hg]
      rw [pyReplace_id base r.1 r.2 (Bool.not_eq_true _ ▸ hg)]
      exact ih hrs base

theorem split_space_once_eq_none (s : Str) (h : ' ' ∉ s) : split_space_once s = none := by
  induction s with
  | nil => rfl
  | cons c rest ih =>
    have hc : c ≠ ' ' := fun he => h (by rw [he]; exact List.mem_cons_self ' ' rest)
    have hrest : ' ' ∉ rest := fun he => h (List.mem_cons_of_mem c he)
    simp only [split_space_once, if_neg hc, ih hrest]

theorem split_space_once_eq_some (s : Str) (h : ' ' ∈ s) :
    split_space_once s =
      some (s.takeWhile (fun c => c != ' '), (s.dropWhile (fun c => c != ' ')).tail) := by
  induction s with
  | nil => cases h
  | cons c rest ih =>
    by_cases hc : c = ' '
    · subst hc
      simp [split_space_once, List.takeWhile_cons, List.dropWhile_cons]
    · have hrest : ' ' ∈ rest := by
        cases List.mem_cons.mp h with
        | inl he => exact absurd he.symm hc
        | inr hr => exact hr
      simp only [split_space_once, if_neg hc, ih hrest, List.takeWhile_cons,
        List.dropWhile_cons]
      have hb : (c != ' ') = true := by
        simp [bne_iff_ne]
        exact hc
      rw [if_pos hb, if_pos hb]

theorem head?_dropWhile_pred (p : Char → Bool) :
    ∀ (l : Str) (c : Char), (l.dropWhile p).head? = some c → p c = false := by
  intro l
  induction l with
  | nil => intro c h; cases h
  | cons a rest ih =>
    intro c h
    rw [List.dropWhile_cons] at h
    by_cases hp : p a = true
    · rw [if_pos hp] at h; exact ih c h
    · rw [if_neg hp] at h
      have : a = c := by
        have := List.head?_cons (a := a) (l := rest) ▸ h
        exact Option.some.inj this
      rw [← this]
      cases hb : p a with
      | true => exact absurd hb hp
      | false => rfl

theorem pyStrip_getLast?_not_space (s : Str) (c : Char)
    (h : (pyStrip s).getLast? = some c) : isPySpace c = false := by
  unfold pyStrip at h
  rw [List.getLast?_reverse] at h
  exact head?_dropWhile_pred isPySpace _ c h

theorem getLast?_of_suffix (d t : Str) (hsuf : d <:+ t) (hne : d ≠ []) :
    t.getLast? = d.getLast? := by
  obtain ⟨pre, rfl⟩ := hsuf
  exact List.getLast?_append_of_ne_nil pre hne

theorem strip_after_space_ne_nil (line : Str) (h : ' ' ∈ pyStrip line) :
    ((pyStrip line).dropWhile (fun c => c != ' ')).tail ≠ [] := by
  intro htail
  have hdne : (pyStrip line).dropWhile (fun c => c != ' ') ≠ [] := by
    intro hd
    have hall := List.dropWhile_eq_nil_iff.mp hd
    have := hall ' ' h
    simp at this
  cases hd : (pyStrip line).dropWhile (fun c => c != ' ') with
  | nil => exact hdne hd
  | cons c0 rest =>
    have hrest : rest = [] := by rw [hd] at htail; exact htail
    subst hrest
    have hc0 : (c0 != ' ') = false := by
      apply head?_dropWhile_pred (fun c => c != ' ') (pyStrip line) c0
      rw [hd]; rfl
    have hc0' : c0 = ' ' := by
      simpa [bne_eq_false_iff_eq] using hc0
    have hlast : (pyStrip line).getLast? = some c0 := by
      rw [getLast?_of_suffix [c0] (pyStrip line) (hd ▸ List.dropWhile_suffix _) (by simp)]
      rfl
    have := pyStrip_getLast?_not_space line c0 hlast
    rw [hc0'] at this
    cases this

theorem upperFirstOpt_eq_spec (v : Str) (h : v ≠ []) :
    upperFirstOpt v = some (upperFirstSpec v) := by
  cases v with
  | nil => exact absurd rfl h
  | cons c cs => rfl

theorem processLine_eq (d : List (Str × Str)) (line : Str) :
    processLine d line =
      some (
        if (pyStrip line).isEmpty || startsWithHash (pyStrip line) then d
        else if ' ' ∈ pyStrip line then
          dictInsert d ((pyStrip line).takeWhile (fun c => c != ' '))
            (upperFirstSpec (((pyStrip line).dropWhile (fun c => c != ' ')).tail))
        else d) := by
  unfold processLine
  by_cases h0 : ((pyStrip line).isEmpty || startsWithHash (pyStrip line)) = true
  · rw [if_pos h0, if_pos h0]
  · rw [if_neg h0, if_neg h0]
    by_cases hsp : ' ' ∈ pyStrip line
    · rw [if_pos hsp, split_space_once_eq_some (pyStrip line) hsp]
      dsimp only
      rw [upperFirstOpt_eq_spec _ (strip_after_space_ne_nil line hsp)]
    · rw [if_neg hsp, split_space_once_eq_none (pyStrip line) hsp]

theorem batch_foldl_length (raises : Str → Bool) (entries : List (Str × Str)) :
    ∀ acc : List Str × List Bool,
      ((entries.foldl (batchStep raises) acc).2).length = acc.2.length + entries.length := by
  induction entries with
  | nil => intro acc; simp
  | cons e es ih =>
    intro acc
    rw [List.foldl_cons, ih (batchStep raises acc e)]
    simp [batchStep]
    omega

/-- Claim C1 (confirmed): for every chunk and every ReplacementMap, the
per-chunk rule loop of `_process_file` applies the rules sequentially in
the map's defined order, each rule replacing every occurrence of its old
string in the possibly already-rewritten text — i.e. it computes exactly
`apply_replacement_rules`; in particular rules `[("A","B"), ("B","C")]` on
`"A"` give `"C"`, and the map `{"Hello world": "hello everyone", "Hello":
"hello"}` on file content `"Hello world, Hello!"` yields
`"hello everyone, hello!"`. -/
theorem c1_sequential_replacement :
    (∀ (rules : List (Str × Str)) (chunk : Str),
        (rewriteChunk rules chunk).1 = apply_replacement_rules rules chunk) ∧
    apply_replacement_rules [("A".toList, "B".toList), ("B".toList, "C".toList)] "A".toList
      = "C".toList ∧
    (rewriteChunk [("Hello world".toList, "hello everyone".toList),
        ("Hello".toList, "hello".toList)] "Hello world, Hello!".toList).1
      = "hello everyone, hello!".toList ∧
    process_file [("Hello world".toList, "hello everyone".toList),
        ("Hello".toList, "hello".toList)] 32 "Hello world, Hello!".toList
      = ("hello everyone, hello!".toList, true) :=
  ⟨rewriteChunk_fst, by decide, by decide, by decide⟩

/-- Claim C2 counterexample: with the map `{"a": "a"}` (a rule whose old
and new strings are equal) on a file containing `"a"`, `_process_file`
raises its `content_changed` flag and performs a write even though the
written content is byte-for-byte the original, so "a write occurs only
when the content changed" is false. -/
theorem c2_counterexample_write_without_change :
    (process_file [("a".toList, "a".toList)] 4 "a".toList).2 = true ∧
    (process_file [("a".toList, "a".toList)] 4 "a".toList).1 = "a".toList := by decide

/-- Claim C2 (amended): the direction of the claim that survives — a file
containing none of the mapped old strings is left unchanged and no write is
performed; the converse fails because the flag is raised by finding an old
string, not by the content actually differing. -/
theorem c2_no_write_without_old_string :
    ∀ (rules : List (Str × Str)) (m : Nat) (content : Str),
      (∀ r ∈ rules, isSubstringOf r.1 content = false) →
      process_file rules m content = (content, false) :=
  process_file_noop

theorem c2_no_write_without_old_string_witness :
    process_file [("x".toList, "y".toList)] 2 "ab".toList = ("ab".toList, false) :=
  c2_no_write_without_old_string [("x".toList, "y".toList)] 2 "ab".toList (by decide)

/-- Claim C3 (confirmed): with map `{"ab": "X"}` and buffer size 1, the
occurrence of `"ab"` in the file content `"ab"` straddles the chunk
boundary, no chunk-local match is found, the file is left unchanged with no
write — while the whole-file sequential replacement would give `"X"`, so
the chunked rewrite differs from the whole-file replacement. -/
theorem c3_chunk_boundary_miss :
    process_file [("ab".toList, "X".toList)] 1 "ab".toList = ("ab".toList, false) ∧
    apply_replacement_rules [("ab".toList, "X".toList)] "ab".toList = "X".toList ∧
    (process_file [("ab".toList, "X".toList)] 1 "ab".toList).1
      ≠ apply_replacement_rules [("ab".toList, "X".toList)] "ab".toList := by decide

/-- Claim C4 counterexample: the map `{"ab": "b"}` satisfies the claim's
proviso (no replacement value contains a replacement key as a substring:
`"ab"` is not a substring of `"b"`), yet on the file `"aab"` the first run
produces `"ab"` and the second run changes that file again (its
`content_changed` flag fires), so the rewrite is not idempotent under the
stated proviso. -/
theorem c4_counterexample_not_idempotent :
    isSubstringOf "ab".toList "b".toList = false ∧
    (process_file [("ab".toList, "b".toList)] 4 "aab".toList).1 = "ab".toList ∧
    (process_file [("ab".toList, "b".toList)] 4
        (process_file [("ab".toList, "b".toList)] 4 "aab".toList).1).2 = true := by decide

/-- Claim C4 (amended): the second run is a no-op (nothing written, content
unchanged) under the stronger proviso that no rule's old string occurs in
the first run's output at all. -/
theorem c4_second_run_noop :
    ∀ (rules : List (Str × Str)) (m : Nat) (content : Str),
      (∀ r ∈ rules, isSubstringOf r.1 (process_file rules m content).1 = false) →
      process_file rules m (process_file rules m content).1
        = ((process_file rules m content).1, false) :=
  fun rules m content h => process_file_noop rules m (process_file rules m content).1 h

theorem c4_second_run_noop_witness :
    process_file [("a".toList, "b".toList)] 4
        ((process_file [("a".toList, "b".toList)] 4 "a".toList).1)
      = ((process_file [("a".toList, "b".toList)] 4 "a".toList).1, false) :=
  c4_second_run_noop [("a".toList, "b".toList)] 4 "a".toList (by decide)

/-- Claim C5 counterexample: an I/O error raised by the `f.write` call
(line 120) strikes after `open(file_path, 'w')` (line 117) has already
truncated the file; with map `{"a": "b"}` and file `"a"`, the caught error
leaves the file empty on disk — neither the original content nor the fully
rewritten content, i.e. a partial write. -/
theorem c5_counterexample_partial_write :
    process_file_disk [("a".toList, "b".toList)] 4 "a".toList (ErrPoint.atWrite 0) = [] ∧
    process_file [("a".toList, "b".toList)] 4 "a".toList = ("b".toList, true) ∧
    ([] : Str) ≠ "a".toList ∧ ([] : Str) ≠ "b".toList := by decide

/-- Claim C5 (amended): every error is caught inside the per-file handler
(the model functions are total), any error raised before the write call
(read-side `open`, any chunk read, or the write-side `open` itself) leaves
the file's on-disk state unchanged, and each file's outcome depends only on
its own content and error point, so one file's error never aborts the
processing of other files.  Only an error inside `f.write`, after the
successful truncating `open`, escapes the claim — see the counterexample. -/
theorem c5_errors_caught_and_read_errors_noop :
    (∀ (rules : List (Str × Str)) (m : Nat) (content : Str) (i : Nat),
        process_file_disk rules m content ErrPoint.atOpenRead = content ∧
        process_file_disk rules m content (ErrPoint.atRead i) = content ∧
        process_file_disk rules m content ErrPoint.atOpenWrite = content) ∧
    (∀ (rules : List (Str × Str)) (m : Nat) (files : List (Str × ErrPoint)) (j : Nat),
        (process_tree rules m files)[j]? =
          (files[j]?).map (fun f => process_file_disk rules m f.1 f.2)) := by
  constructor
  · intro rules m content i
    exact ⟨rfl, rfl, rfl⟩
  · intro rules m files j
    simp [process_tree]

/-- Claim C6 (confirmed): the collector's returned path-to-encoding map
never contains a path whose classification was `'binary'` or `None`; such
a path therefore never reaches the rewrite fan-out of `run` and is never
counted as processed. -/
theorem c6_collector_excludes_binary_and_unknown :
    ∀ (classify : Str → Option Str) (paths : List Str) (p : Str),
      (classify p = none ∨ classify p = some "binary".toList) →
      p ∉ (collect_text_files classify paths).map Prod.fst := by
  intro classify paths p hp hmem
  rw [List.mem_map] at hmem
  obtain ⟨pair, hpair, hfst⟩ := hmem
  rw [collect_text_files, List.mem_filterMap] at hpair
  obtain ⟨q, _, hsome⟩ := hpair
  cases hcq : classify q with
  | none => rw [hcq] at hsome; cases hsome
  | some e =>
    rw [hcq] at hsome
    dsimp only at hsome
    by_cases he : e = "binary".toList
    · rw [if_pos he] at hsome; cases hsome
    · rw [if_neg he] at hsome
      have hpair_eq : (q, e) = pair := Option.some.inj hsome
      have hq : q = p := by rw [← hpair_eq] at hfst; exact hfst
      rw [hq] at hcq
      cases hp with
      | inl h => rw [h] at hcq; cases hcq
      | inr h =>
        rw [h] at hcq
        exact he (Option.some.inj hcq).symm

theorem c6_collector_excludes_binary_and_unknown_witness :
    "x".toList ∉
      (collect_text_files (fun _ => some "binary".toList) ["x".toList]).map Prod.fst :=
  c6_collector_excludes_binary_and_unknown (fun _ => some "binary".toList)
    ["x".toList] "x".toList (Or.inr rfl)

/-- Claim C7 counterexample: in the directory pass
(`serial_rename_dirname`), a raised rename on the first entry aborts the
remaining entries: with entries `a → b` then `c → d`, both sources present
and the rename of `a` raising, the filesystem is left untouched — `c` is
still there and `d` was never created — although the rename of `c → d`
alone would have succeeded.  The claim's "the executor still attempts
every remaining entry" is therefore false for the directory pass. -/
theorem c7_counterexample_serial_abort :
    serial_rename_dirname (fun p => p == "a".toList) [] ["a".toList, "c".toList]
        "r".toList [("a".toList, "b".toList), ("c".toList, "d".toList)]
      = ["a".toList, "c".toList] ∧
    "d".toList ∉ serial_rename_dirname (fun p => p == "a".toList) []
        ["a".toList, "c".toList] "r".toList
        [("a".toList, "b".toList), ("c".toList, "d".toList)] ∧
    serialRenameLoop (fun p => p == "a".toList) ["a".toList, "c".toList]
        [("c".toList, "d".toList)] = ["a".toList, "d".toList] := by decide

/-- Claim C7 (amended): the file-rename batch records one boolean result
per entry — every entry is attempted no matter how earlier entries fared —
and in the directory pass a missing source is skipped with processing
continuing, but an entry whose rename raises returns the filesystem as it
stands, abandoning every remaining entry. -/
theorem c7_batch_attempts_all_serial_aborts :
    (∀ (raises : Str → Bool) (fs : List Str) (entries : List (Str × Str)),
        ((batch_rename_filename raises fs entries).2).length = entries.length) ∧
    (∀ (raises : Str → Bool) (fs : List Str) (old nw : Str) (rest : List (Str × Str)),
        old ∉ fs →
        serialRenameLoop raises fs ((old, nw) :: rest) = serialRenameLoop raises fs rest) ∧
    (∀ (raises : Str → Bool) (fs : List Str) (old nw : Str) (rest : List (Str × Str)),
        old ≠ nw → old ∈ fs → raises old = true →
        serialRenameLoop raises fs ((old, nw) :: rest) = fs) := by
  refine ⟨?_, ?_, ?_⟩
  · intro raises fs entries
    have h := batch_foldl_length raises entries (fs, [])
    simpa [batch_rename_filename] using h
  · intro raises fs old nw rest hmem
    by_cases hne : old = nw
    · subst hne
      simp only [serialRenameLoop]
      rw [if_neg (fun h => h rfl)]
    · simp only [serialRenameLoop]
      rw [if_pos hne, if_neg hmem]
  · intro raises fs old nw rest h1 h2 h3
    simp only [serialRenameLoop]
    rw [if_pos h1, if_pos h2, if_pos h3]

theorem c7_batch_attempts_all_serial_aborts_witness :
    ((batch_rename_filename (fun _ => true) ["a".toList]
        [("a".toList, "b".toList)]).2).length = 1 ∧
    serialRenameLoop (fun _ => false) [] [("a".toList, "b".toList)]
      = serialRenameLoop (fun _ => false) [] [] ∧
    serialRenameLoop (fun _ => true) ["a".toList] [("a".toList, "b".toList)]
      = ["a".toList] :=
  ⟨c7_batch_attempts_all_serial_aborts.1 (fun _ => true) ["a".toList]
      [("a".toList, "b".toList)],
   c7_batch_attempts_all_serial_aborts.2.1 (fun _ => false) [] "a".toList "b".toList []
      (by decide),
   c7_batch_attempts_all_serial_aborts.2.2 (fun _ => true) ["a".toList] "a".toList
      "b".toList [] (by decide) (by decide) rfl⟩

/-- Claim C8 counterexample: `abbreviate_words` passes the key to `re.sub`,
which interprets it as a regular expression; with the map
`{"a.c": "Z"}` and base name `"a.c axc"`, the regex `a.c` also matches
`"axc"`, giving `"Z Z"`, while the literal sequential replacement used for
file contents gives `"Z axc"` — so the rename planner does not compute
names by literal substring replacement for every ReplacementMap. -/
theorem c8_counterexample_regex_not_literal :
    abbreviate_words [("a.c".toList, "Z".toList)] "a.c axc".toList = "Z Z".toList ∧
    apply_replacement_rules [("a.c".toList, "Z".toList)] "a.c axc".toList
      = "Z axc".toList ∧
    abbreviate_words [("a.c".toList, "Z".toList)] "a.c axc".toList
      ≠ apply_replacement_rules [("a.c".toList, "Z".toList)] "a.c axc".toList := by decide

/-- Claim C8 (amended): for maps none of whose keys contains a regex
metacharacter (within the modelled pattern fragment: no `'.'`), the rename
planner's abbreviation coincides with the literal sequential substring
replacement used for file contents — in particular it does for the
built-in `REPLACEMENT_RULES`. -/
theorem c8_literal_when_keys_metacharacter_free :
    ∀ (rules : List (Str × Str)) (base : Str),
      (∀ r ∈ rules, '.' ∉ r.1) →
      abbreviate_words rules base = apply_replacement_rules rules base :=
  fun rules base h => abbreviate_eq_apply rules h base

theorem c8_literal_when_keys_metacharacter_free_witness :
    abbreviate_words REPLACEMENT_RULES "My Cat".toList
      = apply_replacement_rules REPLACEMENT_RULES "My Cat".toList :=
  c8_literal_when_keys_metacharacter_free REPLACEMENT_RULES "My Cat".toList (by decide)

/-- Claim C9 (confirmed): config loading processes each line as follows —
a line that strips to empty or to a `'#'`-comment contributes nothing; a
stripped line containing a space is split at the first space into the key
(the characters before the first space) and the value (the remainder with
its first character forced to uppercase), stored in the dictionary; any
other line contributes nothing.  In particular `"cat Dog"` loads to
`{"cat": "Dog"}` and `"cat dog"` loads to `{"cat": "Dog"}`. -/
theorem c9_config_line_parsing :
    (∀ (d : List (Str × Str)) (line : Str),
        processLine d line =
          some (
            if (pyStrip line).isEmpty || startsWithHash (pyStrip line) then d
            else if ' ' ∈ pyStrip line then
              dictInsert d ((pyStrip line).takeWhile (fun c => c != ' '))
                (upperFirstSpec (((pyStrip line).dropWhile (fun c => c != ' ')).tail))
            else d)) ∧
    read_config_file ["cat Dog".toList] = [("cat".toList, "Dog".toList)] ∧
    read_config_file ["cat dog".toList] = [("cat".toList, "Dog".toList)] :=
  ⟨processLine_eq, by decide, by decide⟩

/-- Claim C10 (confirmed): config parsing is total at its one index
access — processing a line never raises (the value after the first space
of a stripped line is never empty, because stripping removed trailing
whitespace), and a non-empty, non-comment stripped line containing no
space is silently skipped, adding no entry. -/
theorem c10_parsing_total_and_spaceless_skipped :
    (∀ (d : List (Str × Str)) (line : Str), processLine d line ≠ none) ∧
    (∀ (d : List (Str × Str)) (line : Str),
        pyStrip line ≠ [] → startsWithHash (pyStrip line) = false →
        ' ' ∉ pyStrip line → processLine d line = some d) := by
  constructor
  · intro d line h
    rw [processLine_eq] at h
    exact Option.noConfusion h
  · intro d line h1 h2 h3
    rw [processLine_eq]
    have hA : ¬ (((pyStrip line).isEmpty || startsWithHash (pyStrip line)) = true) := by
      rw [Bool.or_eq_true]
      rintro (h | h)
      · exact h1 (List.isEmpty_iff.mp h)
      · rw [h2] at h; cases h
    rw [if_neg hA, if_neg h3]

theorem c10_parsing_total_and_spaceless_skipped_witness :
    processLine [] "nospace".toList ≠ none ∧
    processLine [] "nospace".toList = some [] :=
  ⟨c10_parsing_total_and_spaceless_skipped.1 [] "nospace".toList,
   c10_parsing_total_and_spaceless_skipped.2 [] "nospace".toList (by decide) (by decide)
     (by decide)⟩

end QuickCodeReplace
